import Mathlib

/-!
Verification of the ragged-array (indexed/CSR-style) storage contract and the
lazy array-slicing contract exercised by the NWB tutorial notebook
(`src/Cosyne 2020/NWB_tutorial_2020.ipynb`), together with the notebook's own
file-handle usage and the `SpatialSeries` construction in its behavior section.

The notebook itself only calls into the NWB library: the ragged-array store and
the lazy slicing are implemented by that external library, whose code is not in
this repository.  Those components are therefore modelled from the spec
(definitions marked `Modelled from the spec:`); the notebook-level facts
(file-handle scoping, the `position` series shapes) are embedded from the
notebook source directly.
-/

namespace NWBTutorial

/-- Modelled from the spec: the error kinds of §7 (the library's failure
conditions are not in this repository). -/
inductive RArrError where
  | IndexOutOfRange
  | OutOfBounds
  | InvalidState
  | CorruptData
deriving DecidableEq, Repr

/-- Modelled from the spec: the `RaggedArray` data model of §3 — a flat
concatenated `values` buffer and a `row_ends` buffer of exclusive end offsets,
one per logical row (the library's `VectorData`/`VectorIndex` pair used by
`nwb.add_unit` is not in this repository). -/
structure RaggedArray (T : Type) where
  values : List T
  row_ends : List Nat
deriving DecidableEq, Repr

variable {T : Type}

/-- Modelled from the spec: `append_row` (§4.1) — appends `elements` to
`values`, appends the new cumulative length to `row_ends`, and returns the new
row's 0-based index. -/
def append_row (ra : RaggedArray T) (elements : List T) : RaggedArray T × Nat :=
  (⟨ra.values ++ elements, ra.row_ends ++ [ra.values.length + elements.length]⟩,
   ra.row_ends.length)

/-- Modelled from the spec: `row_count` (§4.1) returns `len(row_ends)`. -/
def row_count (ra : RaggedArray T) : Nat := ra.row_ends.length

/-- Python-style slice `l[s:e]` (clamping, empty when `e ≤ s`). -/
def sliceList (l : List T) (s e : Nat) : List T := (l.drop s).take (e - s)

/-- Start offset of logical row `i`: `row_ends[i-1]` for `i > 0`, else `0`. -/
def rowStart (ra : RaggedArray T) (i : Nat) : Nat :=
  if i = 0 then 0 else ra.row_ends.getD (i - 1) 0

/-- Modelled from the spec: `get_row` (§4.1) — in bounds it returns the slice
`values[start:end]` with `end = row_ends[index]`, `start = row_ends[index-1]`
(or 0); out of bounds (negative or `≥ row_count`) it fails with
`IndexOutOfRange`. -/
def get_row (ra : RaggedArray T) (index : Int) : Except RArrError (List T) :=
  if 0 ≤ index ∧ index < (row_count ra : Int) then
    let i := index.toNat
    Except.ok (sliceList ra.values (rowStart ra i) (ra.row_ends.getD i 0))
  else
    Except.error RArrError.IndexOutOfRange

/-- Modelled from the spec: `finalize` (§4.1) returns the two flat buffers for
persistence. -/
def finalize (ra : RaggedArray T) : List T × List Nat := (ra.values, ra.row_ends)

/-- Boolean monotone (non-decreasing) check on an offsets buffer. -/
def isNonDecr : List Nat → Bool
  | [] => true
  | [_] => true
  | a :: b :: t => decide (a ≤ b) && isNonDecr (b :: t)

/-- Modelled from the spec: loading a persisted ragged array (§4.1/§7) —
validates the offsets invariant eagerly at load (the spec permits eager or lazy
validation) and reports `CorruptData` on a non-monotonic `row_ends` or when the
last offset does not close over `values`. -/
def load (values : List T) (row_ends : List Nat) : Except RArrError (RaggedArray T) :=
  if isNonDecr row_ends && (row_ends.getLastD values.length == values.length) then
    Except.ok ⟨values, row_ends⟩
  else
    Except.error RArrError.CorruptData

/-- The empty store, before any `append_row`. -/
def emptyRagged : RaggedArray T := ⟨[], []⟩

/-- Run a sequence of `append_row` operations from a given state. -/
def buildFrom (ra : RaggedArray T) (rows : List (List T)) : RaggedArray T :=
  rows.foldl (fun a r => (append_row a r).1) ra

/-- Build a store by appending the given rows to the empty store, as the
notebook's loop of `nwb.add_unit(spike_times=...)` calls does. -/
def build (rows : List (List T)) : RaggedArray T := buildFrom emptyRagged rows

/-- The cumulative end offsets produced by appending `rows` after `n` values
are already stored. -/
def endsFrom (n : Nat) : List (List T) → List Nat
  | [] => []
  | r :: rs => (n + r.length) :: endsFrom (n + r.length) rs

/-- Total element count of a row list. -/
def sumLens (rows : List (List T)) : Nat := (rows.map List.length).sum

theorem buildFrom_eq (ra : RaggedArray T) (rows : List (List T)) :
    buildFrom ra rows =
      ⟨ra.values ++ rows.flatten, ra.row_ends ++ endsFrom ra.values.length rows⟩ := by
  induction rows generalizing ra with
  | nil => simp [buildFrom, endsFrom]
  | cons r rs ih =>
    simp only [buildFrom, List.foldl_cons] at *
    rw [show (append_row ra r).1 =
        ⟨ra.values ++ r, ra.row_ends ++ [ra.values.length + r.length]⟩ from rfl]
    rw [ih]
    simp [endsFrom, List.append_assoc]

theorem build_eq (rows : List (List T)) :
    build rows = ⟨rows.flatten, endsFrom 0 rows⟩ := by
  rw [build, buildFrom_eq]
  simp [emptyRagged]

theorem sumLens_cons (r : List T) (rs : List (List T)) :
    sumLens (r :: rs) = r.length + sumLens rs := by
  simp [sumLens]

theorem endsFrom_length (n : Nat) (rows : List (List T)) :
    (endsFrom n rows).length = rows.length := by
  induction rows generalizing n with
  | nil => rfl
  | cons r rs ih => simp [endsFrom, ih]

theorem sumLens_take_succ (rows : List (List T)) (i : Nat) (hi : i < rows.length) :
    sumLens (rows.take (i + 1)) = sumLens (rows.take i) + (rows.getD i []).length := by
  rw [List.take_succ, sumLens, List.map_append, List.sum_append,
    List.getD_eq_getElem rows [] hi]
  simp [sumLens, List.getElem?_eq_getElem hi]

theorem endsFrom_getD (rows : List (List T)) (n i : Nat) (hi : i < rows.length) :
    (endsFrom n rows).getD i 0 = n + sumLens (rows.take (i + 1)) := by
  induction rows generalizing n i with
  | nil => simp at hi
  | cons r rs ih =>
    cases i with
    | zero => simp [endsFrom, sumLens]
    | succ j =>
      have hj : j < rs.length := by simpa using hi
      simp only [endsFrom, List.getD_cons_succ, List.take_succ_cons, sumLens_cons]
      rw [ih _ _ hj]
      omega

theorem flatten_drop_sumLens (rows : List (List T)) (i : Nat) :
    rows.flatten.drop (sumLens (rows.take i)) = (rows.drop i).flatten := by
  induction rows generalizing i with
  | nil => simp [sumLens]
  | cons r rs ih =>
    cases i with
    | zero => simp [sumLens]
    | succ j =>
      simp only [List.take_succ_cons, sumLens_cons, List.flatten_cons, List.drop_succ_cons]
      rw [List.drop_append, ih]

theorem flatten_extract (rows : List (List T)) (i : Nat) (hi : i < rows.length) :
    sliceList rows.flatten (sumLens (rows.take i)) (sumLens (rows.take (i + 1))) =
      rows.getD i [] := by
  rw [sliceList, sumLens_take_succ rows i hi, Nat.add_sub_cancel_left,
    flatten_drop_sumLens rows i, List.drop_eq_getElem_cons hi,
    List.getD_eq_getElem rows [] hi]
  exact List.take_left _ _

/-- In-bounds `get_row` on a built store, restated over a `Nat` index. -/
theorem get_row_build_nat (rows : List (List T)) (i : Nat) (hi : i < rows.length) :
    get_row (build rows) (i : Int) = Except.ok (rows.getD i []) := by
  rw [build_eq]
  have hcount : row_count (⟨rows.flatten, endsFrom 0 rows⟩ : RaggedArray T) = rows.length := by
    simp [row_count, endsFrom_length]
  have hcond : 0 ≤ (i : Int) ∧
      (i : Int) < ((row_count (⟨rows.flatten, endsFrom 0 rows⟩ : RaggedArray T)) : Int) := by
    refine ⟨Int.natCast_nonneg i, ?_⟩
    rw [hcount]
    exact_mod_cast hi
  have hstart : rowStart (⟨rows.flatten, endsFrom 0 rows⟩ : RaggedArray T) i =
      sumLens (rows.take i) := by
    rw [rowStart]
    by_cases h0 : i = 0
    · simp [h0, sumLens]
    · rw [if_neg h0, endsFrom_getD rows 0 (i - 1) (by omega), Nat.zero_add]
      have hsucc : i - 1 + 1 = i := by omega
      rw [hsucc]
  have hend : (endsFrom 0 rows).getD i 0 = sumLens (rows.take (i + 1)) := by
    rw [endsFrom_getD rows 0 i hi, Nat.zero_add]
  simp only [get_row, if_pos hcond, Int.toNat_natCast]
  rw [hstart, hend, flatten_extract rows i hi]

theorem endsFrom_head_ge (m : Nat) (rs : List (List T)) :
    ∀ y ∈ (endsFrom m rs).head?, m ≤ y := by
  cases rs with
  | nil => simp [endsFrom]
  | cons r t =>
    intro y hy
    simp [endsFrom] at hy
    omega

theorem endsFrom_chain (n : Nat) (rows : List (List T)) :
    List.Chain' (· ≤ ·) (endsFrom n rows) := by
  induction rows generalizing n with
  | nil => simp [endsFrom]
  | cons r rs ih =>
    rw [endsFrom, List.chain'_cons']
    exact ⟨fun y hy => endsFrom_head_ge (n + r.length) rs y hy, ih (n + r.length)⟩

theorem endsFrom_getLastD (n : Nat) (rows : List (List T)) :
    (endsFrom n rows).getLastD n = n + sumLens rows := by
  induction rows generalizing n with
  | nil => simp [endsFrom, sumLens]
  | cons r rs ih =>
    rw [endsFrom, List.getLastD_cons, ih, sumLens_cons]
    omega

theorem endsFrom_mem_le (n : Nat) (rows : List (List T)) :
    ∀ e ∈ endsFrom n rows, e ≤ n + sumLens rows := by
  induction rows generalizing n with
  | nil => simp [endsFrom]
  | cons r rs ih =>
    intro e he
    rw [endsFrom, List.mem_cons] at he
    rw [sumLens_cons]
    rcases he with he | he
    · omega
    · have := ih (n + r.length) e he
      omega

/-- C1: reading row `i` of a store built by appending rows `r_0..r_{n-1}`
returns exactly the slice `values[start:end]` with `end = row_ends[i]` and
`start = row_ends[i-1]` (or `0` for `i = 0`), and that slice equals the
originally appended row `r_i`, including when `r_i` is empty. -/
theorem c1_get_row_returns_appended_row (rows : List (List T)) (i : Nat)
    (hi : i < rows.length) :
    get_row (build rows) (i : Int) =
      Except.ok (sliceList (build rows).values (rowStart (build rows) i)
        ((build rows).row_ends.getD i 0)) ∧
    get_row (build rows) (i : Int) = Except.ok (rows.getD i []) := by
  constructor
  · have hcond : 0 ≤ (i : Int) ∧ (i : Int) < ((row_count (build rows)) : Int) := by
      refine ⟨Int.natCast_nonneg i, ?_⟩
      have hcount : row_count (build rows) = rows.length := by
        rw [build_eq]
        simp [row_count, endsFrom_length]
      rw [hcount]
      exact_mod_cast hi
    simp only [get_row, if_pos hcond, Int.toNat_natCast]
  · exact get_row_build_nat rows i hi

theorem c1_witness :
    1 < ([[1, 2], [], [3]] : List (List Nat)).length ∧
    (get_row (build ([[1, 2], [], [3]] : List (List Nat))) ((1 : Nat) : Int) =
      Except.ok (sliceList (build ([[1, 2], [], [3]] : List (List Nat))).values
        (rowStart (build ([[1, 2], [], [3]] : List (List Nat))) 1)
        ((build ([[1, 2], [], [3]] : List (List Nat))).row_ends.getD 1 0)) ∧
    get_row (build ([[1, 2], [], [3]] : List (List Nat))) ((1 : Nat) : Int) =
      Except.ok (([[1, 2], [], [3]] : List (List Nat)).getD 1 [])) :=
  ⟨by decide, c1_get_row_returns_appended_row ([[1, 2], [], [3]] : List (List Nat)) 1 (by decide)⟩

/-- C2: `append_row` appends `elements` to `values`, appends the previous
cumulative length plus `len(elements)` to `row_ends`, grows `values` by the
row's elements and `row_ends` by one entry, and returns the new row's 0-based
index, equal to its position in `row_ends`. -/
theorem c2_append_row_spec (ra : RaggedArray T) (elements : List T) :
    (append_row ra elements).1.values = ra.values ++ elements ∧
    (append_row ra elements).1.row_ends =
      ra.row_ends ++ [ra.values.length + elements.length] ∧
    (append_row ra elements).1.values.length = ra.values.length + elements.length ∧
    (append_row ra elements).1.row_ends.length = ra.row_ends.length + 1 ∧
    (append_row ra elements).2 = (append_row ra elements).1.row_ends.length - 1 ∧
    (append_row ra elements).2 = ra.row_ends.length := by
  simp [append_row]

/-- C3: in every state reachable by a sequence of `append_row` operations from
the empty store (and hence after `finalize`, which does not change the
buffers), `row_ends` is monotonically non-decreasing, its last element equals
`len(values)`, and every offset lies within `[0, len(values)]`. -/
theorem c3_row_ends_invariant (rows : List (List T)) :
    List.Chain' (· ≤ ·) (build rows).row_ends ∧
    (build rows).row_ends.getLastD 0 = (build rows).values.length ∧
    (build rows).row_ends.all
      (fun e => decide (e ≤ (build rows).values.length)) = true := by
  rw [build_eq]
  refine ⟨endsFrom_chain 0 rows, ?_, ?_⟩
  · rw [List.length_flatten]
    have := endsFrom_getLastD 0 rows
    simpa [sumLens] using this
  · rw [List.all_eq_true]
    intro e he
    rw [decide_eq_true_eq, List.length_flatten]
    have := endsFrom_mem_le 0 rows e he
    simpa [sumLens] using this

/-- C5: `get_row` on an out-of-range index (negative or `≥ row_count`) fails
with `IndexOutOfRange`, for any store state, and never returns a row there. -/
theorem c5_get_row_out_of_range (ra : RaggedArray T) (index : Int)
    (h : index < 0 ∨ (row_count ra : Int) ≤ index) :
    get_row ra index = Except.error RArrError.IndexOutOfRange := by
  simp only [get_row]
  rw [if_neg]
  rintro ⟨h1, h2⟩
  rcases h with h | h <;> omega

theorem c5_witness :
    (((-1 : Int) < 0 ∨ ((row_count (emptyRagged : RaggedArray Nat)) : Int) ≤ (-1)) ∧
      get_row (emptyRagged : RaggedArray Nat) (-1) =
        Except.error RArrError.IndexOutOfRange) ∧
    (((5 : Int) < 0 ∨ ((row_count (build ([[1, 2]] : List (List Nat)))) : Int) ≤ 5) ∧
      get_row (build ([[1, 2]] : List (List Nat))) 5 =
        Except.error RArrError.IndexOutOfRange) :=
  ⟨⟨by decide, c5_get_row_out_of_range (emptyRagged : RaggedArray Nat) (-1) (by decide)⟩,
   ⟨by decide, c5_get_row_out_of_range (build ([[1, 2]] : List (List Nat))) 5 (by decide)⟩⟩

/-- C4: for the ragged array with rows `[[1,2,3],[],[4]]`, finalizing yields
the buffers `values = [1,2,3,4]` and `row_ends = [3,3,4]`, reloading those
buffers succeeds and restores exactly the same store (persist-then-reload is
the identity), and the reloaded store answers `get_row 0 = [1,2,3]`,
`get_row 1 = []`, `get_row 2 = [4]`. -/
theorem c4_round_trip :
    finalize (build ([[1, 2, 3], [], [4]] : List (List Nat))) = ([1, 2, 3, 4], [3, 3, 4]) ∧
    load ([1, 2, 3, 4] : List Nat) [3, 3, 4] =
      Except.ok (build ([[1, 2, 3], [], [4]] : List (List Nat))) ∧
    (build ([[1, 2, 3], [], [4]] : List (List Nat))).values = [1, 2, 3, 4] ∧
    (build ([[1, 2, 3], [], [4]] : List (List Nat))).row_ends = [3, 3, 4] ∧
    get_row (build ([[1, 2, 3], [], [4]] : List (List Nat))) 0 = Except.ok [1, 2, 3] ∧
    get_row (build ([[1, 2, 3], [], [4]] : List (List Nat))) 1 = Except.ok [] ∧
    get_row (build ([[1, 2, 3], [], [4]] : List (List Nat))) 2 = Except.ok [4] := by
  refine ⟨by decide, ?_, by decide, by decide, ?_, ?_, ?_⟩ <;> rfl

theorem isNonDecr_eq_true_iff (l : List Nat) :
    isNonDecr l = true ↔ List.Chain' (· ≤ ·) l := by
  induction l with
  | nil => simp [isNonDecr]
  | cons a t ih =>
    cases t with
    | nil => simp [isNonDecr]
    | cons b u =>
      rw [isNonDecr, Bool.and_eq_true, decide_eq_true_eq, ih, List.chain'_cons]

/-- C8: loading a persisted ragged array whose offsets violate the invariant
(non-monotonic `row_ends`, or last offset different from `len(values)`)
reports `CorruptData` and never returns a store. -/
theorem c8_load_corrupt_data (values : List T) (re : List Nat)
    (h : ¬ List.Chain' (· ≤ ·) re ∨ re.getLastD values.length ≠ values.length) :
    load values re = Except.error RArrError.CorruptData := by
  rw [load, if_neg]
  intro hc
  rw [Bool.and_eq_true] at hc
  rcases h with h | h
  · exact h ((isNonDecr_eq_true_iff re).1 hc.1)
  · exact h (by simpa using hc.2)

theorem c8_witness :
    (¬ List.Chain' (· ≤ ·) [3, 2, 5] ∨
      ([3, 2, 5] : List Nat).getLastD ([0, 0, 0, 0, 0] : List Nat).length ≠
        ([0, 0, 0, 0, 0] : List Nat).length) ∧
    load ([0, 0, 0, 0, 0] : List Nat) [3, 2, 5] =
      Except.error RArrError.CorruptData := by
  refine ⟨Or.inl ?_, c8_load_corrupt_data ([0, 0, 0, 0, 0] : List Nat) [3, 2, 5] (Or.inl ?_)⟩ <;>
  · intro hc
    have h2 := (isNonDecr_eq_true_iff [3, 2, 5]).2 hc
    simp [isNonDecr] at h2

/-! ### Lazy array access (§4.2) -/

/-- Modelled from the spec: a `LazyArrayHandle` over a two-dimensional array
(§3, §4.2) — the handle does not own the data; `cell` is the backing store's
random-access element read, and `shape0 × shape1` is the declared shape
(the library's lazy dataset object used by `lfp.data[:10,:5]` is not in this
repository). -/
structure LazyArray (T : Type) where
  shape0 : Nat
  shape1 : Nat
  cell : Nat → Nat → T

/-- Modelled from the spec: `shape()` returns the declared per-dimension
extents without reading element data. -/
def shape (a : LazyArray T) : List Nat := [a.shape0, a.shape1]

/-- Modelled from the spec: a per-dimension region specifier — a single index,
a contiguous range `[s, e)`, or a full-axis wildcard (§4.2). -/
inductive DimSpec where
  | single (i : Nat)
  | interval (s e : Nat)
  | wildcard
deriving DecidableEq, Repr

/-- First element addressed by a dimension specifier. -/
def startOf : DimSpec → Nat
  | DimSpec.single i => i
  | DimSpec.interval s _ => s
  | DimSpec.wildcard => 0

/-- Number of elements addressed by a dimension specifier on an axis of
extent `n`. -/
def extentOf (d : DimSpec) (n : Nat) : Nat :=
  match d with
  | DimSpec.single _ => 1
  | DimSpec.interval _ e => e - startOf d
  | DimSpec.wildcard => n

/-- Whether a dimension specifier stays within an axis of declared extent
`n`. -/
def inBounds (d : DimSpec) (n : Nat) : Bool :=
  match d with
  | DimSpec.single i => decide (i < n)
  | DimSpec.interval _ e => decide (e ≤ n)
  | DimSpec.wildcard => true

/-- Modelled from the spec: `slice` (§4.2) — reads only the addressed region
from the backing store and returns it fully materialized; fails with
`OutOfBounds` if any requested index/range exceeds the declared shape. -/
def slice (a : LazyArray T) (d0 d1 : DimSpec) : Except RArrError (List (List T)) :=
  if inBounds d0 a.shape0 && inBounds d1 a.shape1 then
    Except.ok ((List.range' (startOf d0) (extentOf d0 a.shape0)).map fun i =>
      (List.range' (startOf d1) (extentOf d1 a.shape1)).map fun j => a.cell i j)
  else
    Except.error RArrError.OutOfBounds

/-- Full materialization of the array, as `data[:]` performs. -/
def materialize (a : LazyArray T) : List (List T) :=
  (List.range a.shape0).map fun i => (List.range a.shape1).map fun j => a.cell i j

/-- The `[s0 : s0+n0, s1 : s1+n1]` sub-region of a materialized
two-dimensional array. -/
def region (m : List (List T)) (s0 n0 s1 n1 : Nat) : List (List T) :=
  ((m.drop s0).take n0).map fun r => (r.drop s1).take n1

theorem map_range_extract {α : Type} (f : Nat → α) (s n m : Nat)
    (h : s + n ≤ m ∨ n = 0) :
    (((List.range m).map f).drop s).take n = (List.range' s n).map f := by
  apply List.ext_getElem
  · simp
    omega
  · intro i h1 h2
    simp [List.getElem_take, List.getElem_drop, List.getElem_range, List.getElem_range']

theorem inBounds_spec (d : DimSpec) (n : Nat) (h : inBounds d n = true) :
    startOf d + extentOf d n ≤ n ∨ extentOf d n = 0 := by
  cases d <;> simp [inBounds, startOf, extentOf] at * <;> omega

theorem region_eq_of_inBounds (a : LazyArray T) (d0 d1 : DimSpec)
    (h0 : inBounds d0 a.shape0 = true) (h1 : inBounds d1 a.shape1 = true) :
    region (materialize a) (startOf d0) (extentOf d0 a.shape0)
        (startOf d1) (extentOf d1 a.shape1) =
      (List.range' (startOf d0) (extentOf d0 a.shape0)).map fun i =>
        (List.range' (startOf d1) (extentOf d1 a.shape1)).map fun j => a.cell i j := by
  have hb0 := inBounds_spec d0 a.shape0 h0
  have hb1 := inBounds_spec d1 a.shape1 h1
  rw [region, materialize,
    map_range_extract (fun i => (List.range a.shape1).map fun j => a.cell i j)
      (startOf d0) (extentOf d0 a.shape0) a.shape0 hb0, List.map_map]
  apply List.map_congr_left
  intro i _
  simp only [Function.comp]
  rw [map_range_extract (a.cell i) (startOf d1) (extentOf d1 a.shape1) a.shape1 hb1]

/-- C6: for every in-bounds region of a lazily opened array, `slice` succeeds,
its result equals the corresponding region of the fully materialized array,
and its shape matches the requested region exactly (outer extent, and every
row of the inner extent). -/
theorem c6_slice_matches_materialized_region (a : LazyArray T) (d0 d1 : DimSpec)
    (h0 : inBounds d0 a.shape0 = true) (h1 : inBounds d1 a.shape1 = true) :
    slice a d0 d1 = Except.ok (region (materialize a) (startOf d0)
      (extentOf d0 a.shape0) (startOf d1) (extentOf d1 a.shape1)) ∧
    (region (materialize a) (startOf d0) (extentOf d0 a.shape0)
      (startOf d1) (extentOf d1 a.shape1)).length = extentOf d0 a.shape0 ∧
    (region (materialize a) (startOf d0) (extentOf d0 a.shape0)
        (startOf d1) (extentOf d1 a.shape1)).map List.length =
      List.replicate (extentOf d0 a.shape0) (extentOf d1 a.shape1) := by
  have hreg := region_eq_of_inBounds a d0 d1 h0 h1
  refine ⟨?_, ?_, ?_⟩
  · rw [slice, if_pos (by rw [h0, h1]; rfl), hreg]
  · rw [hreg]
    simp [List.length_range']
  · rw [hreg, List.map_map]
    rw [List.eq_replicate_iff]
    constructor
    · simp [List.length_range']
    · intro b hb
      simp only [List.mem_map, Function.comp] at hb
      obtain ⟨i, _, hib⟩ := hb
      simp [← hib, List.length_range']

theorem c6_witness :
    (inBounds (DimSpec.interval 0 2) (LazyArray.mk 3 4 (fun i j => i * 10 + j)).shape0 = true) ∧
    (inBounds DimSpec.wildcard (LazyArray.mk 3 4 (fun i j => i * 10 + j)).shape1 = true) ∧
    (slice (LazyArray.mk 3 4 (fun i j => i * 10 + j)) (DimSpec.interval 0 2) DimSpec.wildcard =
      Except.ok (region (materialize (LazyArray.mk 3 4 (fun i j => i * 10 + j)))
        (startOf (DimSpec.interval 0 2))
        (extentOf (DimSpec.interval 0 2) (LazyArray.mk 3 4 (fun i j => i * 10 + j)).shape0)
        (startOf DimSpec.wildcard)
        (extentOf DimSpec.wildcard (LazyArray.mk 3 4 (fun i j => i * 10 + j)).shape1)) ∧
    (region (materialize (LazyArray.mk 3 4 (fun i j => i * 10 + j)))
        (startOf (DimSpec.interval 0 2))
        (extentOf (DimSpec.interval 0 2) (LazyArray.mk 3 4 (fun i j => i * 10 + j)).shape0)
        (startOf DimSpec.wildcard)
        (extentOf DimSpec.wildcard (LazyArray.mk 3 4 (fun i j => i * 10 + j)).shape1)).length =
      extentOf (DimSpec.interval 0 2) (LazyArray.mk 3 4 (fun i j => i * 10 + j)).shape0 ∧
    (region (materialize (LazyArray.mk 3 4 (fun i j => i * 10 + j)))
        (startOf (DimSpec.interval 0 2))
        (extentOf (DimSpec.interval 0 2) (LazyArray.mk 3 4 (fun i j => i * 10 + j)).shape0)
        (startOf DimSpec.wildcard)
        (extentOf DimSpec.wildcard (LazyArray.mk 3 4 (fun i j => i * 10 + j)).shape1)).map
          List.length =
      List.replicate (extentOf (DimSpec.interval 0 2) (LazyArray.mk 3 4 (fun i j => i * 10 + j)).shape0)
        (extentOf DimSpec.wildcard (LazyArray.mk 3 4 (fun i j => i * 10 + j)).shape1)) :=
  ⟨by decide, by decide,
   c6_slice_matches_materialized_region (LazyArray.mk 3 4 (fun i j => i * 10 + j))
     (DimSpec.interval 0 2) DimSpec.wildcard (by decide) (by decide)⟩

/-- C7: `slice` over a region with any dimension out of bounds fails with
`OutOfBounds` and never returns data. -/
theorem c7_slice_out_of_bounds (a : LazyArray T) (d0 d1 : DimSpec)
    (h : inBounds d0 a.shape0 = false ∨ inBounds d1 a.shape1 = false) :
    slice a d0 d1 = Except.error RArrError.OutOfBounds := by
  rw [slice, if_neg]
  intro hc
  rw [Bool.and_eq_true] at hc
  rcases h with h | h <;> rw [h] at hc <;> simp at hc

theorem c7_witness :
    (inBounds (DimSpec.interval 0 10) (LazyArray.mk 3 4 (fun i j => i + j)).shape0 = false ∨
      inBounds DimSpec.wildcard (LazyArray.mk 3 4 (fun i j => i + j)).shape1 = false) ∧
    slice (LazyArray.mk 3 4 (fun i j => i + j)) (DimSpec.interval 0 10) DimSpec.wildcard =
      Except.error RArrError.OutOfBounds :=
  ⟨Or.inl (by decide),
   c7_slice_out_of_bounds (LazyArray.mk 3 4 (fun i j => i + j))
     (DimSpec.interval 0 10) DimSpec.wildcard (Or.inl (by decide))⟩

/-! ### File-handle usage of the notebook (§5) -/

/-- A file-handle event of the backing store: acquisition or release. -/
inductive IOEvent where
  | openEv
  | closeEv
deriving DecidableEq, Repr

/-- A statement of the notebook's handle-using cells: an unscoped acquisition
(`io = NWBHDF5IO(...)`), an explicit release (`io.close()`), an arbitrary body
computation that may raise (`io.read()`, `print(...)`), or a scoped
`with NWBHDF5IO(...) as io:` block whose body may raise. -/
inductive Stmt where
  | openS
  | closeS
  | body (raises : Bool)
  | withS (raises : Bool)
deriving DecidableEq, Repr

/-- Execute a cell: returns the emitted handle events and whether an exception
escaped.  A raising body stops the remaining statements (no `try`/`finally` in
the notebook); a `with` block always emits its close, then propagates the
body's exception. -/
def runCell : List Stmt → List IOEvent × Bool
  | [] => ([], false)
  | Stmt.openS :: rest =>
    let r := runCell rest
    (IOEvent.openEv :: r.1, r.2)
  | Stmt.closeS :: rest =>
    let r := runCell rest
    (IOEvent.closeEv :: r.1, r.2)
  | Stmt.body b :: rest =>
    if b then ([], true) else runCell rest
  | Stmt.withS b :: rest =>
    if b then ([IOEvent.openEv, IOEvent.closeEv], true)
    else
      let r := runCell rest
      (IOEvent.openEv :: IOEvent.closeEv :: r.1, r.2)

/-- Number of handle acquisitions in a trace. -/
def opensIn (t : List IOEvent) : Nat := t.count IOEvent.openEv

/-- Number of handle releases in a trace. -/
def closesIn (t : List IOEvent) : Nat := t.count IOEvent.closeEv

/-- The notebook's `with NWBHDF5IO(...) as io: ...` cells (both write cells
and the first read cell), whose body may raise. -/
def withCell (bodyRaises : Bool) : List Stmt := [Stmt.withS bodyRaises]

/-- The notebook's final read cell:
`io = NWBHDF5IO('ecephys_tutorial.nwb', 'r')`, then `io.read()` and two
`print`s, then `io.close()` — manual, unscoped acquisition. -/
def finalReadCell (bodyRaises : Bool) : List Stmt :=
  [Stmt.openS, Stmt.body bodyRaises, Stmt.closeS]

/-- C9 counterexample: when the body of the notebook's final read cell raises,
the acquired handle is never released — one open, zero closes — so it is not
the case that every acquisition is released on every exit path. -/
theorem c9_counterexample_manual_close_leaks :
    opensIn (runCell (finalReadCell true)).1 = 1 ∧
    closesIn (runCell (finalReadCell true)).1 = 0 ∧
    opensIn (runCell (finalReadCell true)).1 ≠ closesIn (runCell (finalReadCell true)).1 := by
  decide

/-- C9 amended: the notebook's `with`-statement acquisitions release the
handle on every exit path, including when the body raises; the final read cell
acquires the handle without scoping and releases it only on its normal path —
when its body raises, the handle leaks. -/
theorem c9_amended_scoped_cells_release :
    (∀ b : Bool, opensIn (runCell (withCell b)).1 = closesIn (runCell (withCell b)).1) ∧
    opensIn (runCell (finalReadCell false)).1 = closesIn (runCell (finalReadCell false)).1 ∧
    opensIn (runCell (finalReadCell true)).1 ≠ closesIn (runCell (finalReadCell true)).1 := by
  decide

/-! ### The `position` SpatialSeries of the notebook's behavior section -/

/-- `np.linspace(a, b, num)`: `num` evenly spaced samples from `a` to `b`
inclusive, as used by the notebook (the `i`-th sample is
`a + i * (b - a) / (num - 1)`). -/
def linspace (a b : ℚ) (num : Nat) : List ℚ :=
  (List.range num).map fun (i : Nat) => a + (b - a) * (i : ℚ) / ((num - 1 : Nat) : ℚ)

/-- `position_data = np.array([np.linspace(0, 10, 100), np.linspace(1, 8, 100)]).T`
from the notebook: the rows of the transposed 100 × 2 array. -/
def position_data : List (ℚ × ℚ) := (linspace 0 10 100).zip (linspace 1 8 100)

/-- `timestamps=np.linspace(0, 100) / 200` from the notebook's `SpatialSeries`
construction; `np.linspace`'s default sample count is 50. -/
def position_timestamps : List ℚ := (linspace 0 100 50).map fun t => t / 200

/-- C10: the `position` SpatialSeries pairs 100 data samples (the 100 × 2
array) with only 50 timestamps — the number of timestamps does not equal the
number of data samples. -/
theorem c10_position_timestamps_mismatch :
    position_data.length = 100 ∧
    position_timestamps.length = 50 ∧
    position_timestamps.length ≠ position_data.length := by
  have hlin : ∀ (a b : ℚ) (num : Nat), (linspace a b num).length = num := by
    intro a b num
    rw [linspace, List.length_map, List.length_range]
  have hd : position_data.length = 100 := by
    rw [position_data, List.length_zip, hlin, hlin]
    rfl
  have ht : position_timestamps.length = 50 := by
    rw [position_timestamps, List.length_map, hlin]
  refine ⟨hd, ht, ?_⟩
  rw [hd, ht]
  omega

end NWBTutorial
